import Mathlib

/-!
Verification development for the crypto-context orchestration core
(`src/pke/lib/cryptocontext.cpp`): evaluation-key registry merge semantics,
dispatcher routing, multiparty decryption fusion validation, and the
threshold secret-share manager (additive and Shamir sharing over CRT-limb
ring elements).

Modelling conventions:
* Machine integers (`usint`, `NativeInteger`, `uint32_t`) are modelled as
  `Nat`; every modular operation carries its explicit `% q`.  The values
  appearing in the share manager are bounded far below `2 ^ 64`, so plain
  `Nat` arithmetic coincides with the machine arithmetic.
* `OPENFHE_THROW` is modelled by `Except CCError`.
* External collaborators (the scheme backend, the uniform random generator
  `DugType`, the plaintext factory) are passed in as explicit function
  arguments: they are outside the orchestration layer, per the design.
* Conversion between the coefficient and the transform (evaluation)
  representation of a ring element is external ring algebra and is a value
  preserving bijection on the underlying element.  Every stored-word read or
  write performed by the embedded functions happens while the poly is in
  COEFFICIENT representation, or after a conversion round trip back to it,
  so the model keeps the stored words fixed under `SetFormat` and tracks
  only the representation tag.
-/

deriving instance DecidableEq for Except

namespace lbcrypto

/-- Error kinds raised through `OPENFHE_THROW` in `cryptocontext.cpp`.
The natural-language spec calls `not_available_error` NotFoundError. -/
inductive CCError where
  | configError
  | mathError
  | typeError
  | notAvailableError
  | notImplementedError
deriving DecidableEq, Repr

/-- Representation tag of a ring element: polynomial coefficient domain or
evaluation (transform) domain. -/
inductive Format where
  | COEFFICIENT
  | EVALUATION
deriving DecidableEq, Repr

/-- One CRT limb of a ring element: limb modulus, representation tag, and
the stored words, one per ring slot. -/
structure NativePoly where
  modulus : ℕ
  format : Format
  values : List ℕ
deriving DecidableEq, Repr

/-- A ring element split into CRT limbs. -/
structure DCRTPoly where
  limbs : List NativePoly
deriving DecidableEq, Repr

/-- The fixed parameter set: ring dimension and the per-limb moduli
(`elementParams->GetRingDimension()`, `...->GetParams()[k]->GetModulus()`). -/
structure ElementParams where
  ringDimension : ℕ
  moduli : List ℕ
deriving DecidableEq, Repr

/-- Default limb used by total `getD` style access. -/
def defaultNativePoly : NativePoly := ⟨0, Format.COEFFICIENT, []⟩

/-- Default element used by total `getD` style access. -/
def defaultDCRTPoly : DCRTPoly := ⟨[]⟩

/-- Stored word of limb `k` at slot `l` (total, defaulting to `0`). -/
def DCRTPoly.val (p : DCRTPoly) (k l : ℕ) : ℕ :=
  ((p.limbs.getD k defaultNativePoly).values.getD l 0)

/-- `NativeInteger::ModMul`: product reduced by the limb modulus. -/
def NativeModMul (a b q : ℕ) : ℕ := a * b % q

/-- `NativeInteger::ModInverse`: the modular inverse, modelled as the least
witness below the modulus (external math library; both the code embedding
and the spec-side formula use this same function). -/
def modInverse (a q : ℕ) : ℕ :=
  ((List.range q).find? (fun x => a * x % q == 1)).getD 0

/-- The positive representative of the difference `i - j` used before
inversion: a negative difference is corrected by adding the modulus
(`denom_positive = modq_k - (-denominator)`). -/
def posDiff (i j q : ℕ) : ℕ := if i < j then q - (j - i) else i - j

/-- Per-limb pointwise modular addition (`NativePoly` addition). -/
def NativePoly.modAdd (a b : NativePoly) : NativePoly :=
  ⟨a.modulus, a.format, List.zipWith (fun x y => (x + y) % a.modulus) a.values b.values⟩

/-- Per-limb pointwise modular subtraction (`NativePoly` subtraction). -/
def NativePoly.modSub (a b : NativePoly) : NativePoly :=
  ⟨a.modulus, a.format,
    List.zipWith (fun x y => (x + (a.modulus - y % a.modulus)) % a.modulus) a.values b.values⟩

/-- `DCRTPoly` addition: limbwise modular addition. -/
def DCRTPoly.add (a b : DCRTPoly) : DCRTPoly :=
  ⟨List.zipWith NativePoly.modAdd a.limbs b.limbs⟩

/-- `DCRTPoly` subtraction: limbwise modular subtraction. -/
def DCRTPoly.sub (a b : DCRTPoly) : DCRTPoly :=
  ⟨List.zipWith NativePoly.modSub a.limbs b.limbs⟩

/-- `SetFormat` on a whole element: per the modelling convention stated at
the top of the file, only the representation tag changes. -/
def DCRTPoly.setFormat (p : DCRTPoly) (f : Format) : DCRTPoly :=
  ⟨p.limbs.map (fun np => ⟨np.modulus, f, np.values⟩)⟩

/-- Well-formedness of an element for a parameter set: one limb per
modulus, each limb carrying its modulus, `ringDimension` stored words per
limb, every stored word reduced below the limb modulus. -/
def DCRTPoly.wf (ep : ElementParams) (p : DCRTPoly) : Prop :=
  p.limbs.length = ep.moduli.length ∧
  ∀ k, k < ep.moduli.length →
    (p.limbs.getD k defaultNativePoly).modulus = ep.moduli.getD k 0 ∧
    (p.limbs.getD k defaultNativePoly).values.length = ep.ringDimension ∧
    ∀ l, l < ep.ringDimension → p.val k l < ep.moduli.getD k 0

/-- The `shareType` string selecting additive sharing. -/
def additiveMode : String := "additive"

/-- The `shareType` string selecting Shamir sharing. -/
def shamirMode : String := "shamir"

/-- The vector `SecretSharesVec` built by the additive branch of
`ShareKeys`: the first random draw `rsum`, then the `num_of_shares - 2`
loop draws, and finally `sk - rsum` where `rsum` accumulated every draw.
`rand` is the stream of uniform draws of the external `DugType`. -/
def additiveVec (ske : DCRTPoly) (numShares : ℕ) (rand : ℕ → DCRTPoly) : List DCRTPoly :=
  let rsum0 := rand 0
  let rest := (List.range (numShares - 2)).map (fun i => rand (i + 1))
  (rsum0 :: rest) ++ [ske.sub (rest.foldl DCRTPoly.add rsum0)]

/-- `powtemp` after `t` iterations of `powtemp = powtemp.ModMul(i, modq_k)`
starting from `1`: the scalar power `i ^ t` reduced by the limb modulus. -/
def powMod (i e q : ℕ) : ℕ := i ^ e % q

/-- Limb `k` of a Shamir share for party `i` in `ShareKeys`: the polynomial
with coefficient list `fs` evaluated at the scalar point `i`, slotwise.
Each inner term is `powtemppoly.at(l).ModMul(fst.at(l), modq_k)`, the terms
are accumulated by plain (unreduced) `NativeInteger` addition, and the
constant coefficient is finally added by the modular `NativePoly` addition
`fevalpoly += fs[0]`. -/
def shamirEvalLimb (fs : List DCRTPoly) (threshold i k q n : ℕ) : NativePoly :=
  ⟨q, Format.COEFFICIENT,
    (List.range n).map (fun l =>
      ((((List.range (threshold - 1)).map (fun t =>
          NativeModMul (powMod i (t + 1) q) ((fs.getD (t + 1) defaultDCRTPoly).val k l) q)).sum)
        + (fs.getD 0 defaultDCRTPoly).val k l) % q)⟩

/-- `CryptoContextImpl<DCRTPoly>::ShareKeys(sk, N, threshold, index,
shareType)`.  `ske` is the private element of `sk`, `ep` the parameter set
of its context, `rand` the stream of uniform draws.  Returns the party
share map as an association list in ascending party-index order (the order
in which the source loop `for i = 1..N, i != index` fills the map). -/
def ShareKeys (ske : DCRTPoly) (ep : ElementParams) (N threshold index : ℕ)
    (shareType : String) (rand : ℕ → DCRTPoly) :
    Except CCError (List (ℕ × DCRTPoly)) :=
  if N < 2 then .error .configError
  else if threshold ≤ N / 2 then .error .configError
  else if ep.moduli.any (fun q => decide (q ≤ N)) then .error .mathError
  else if shareType = additiveMode then
    .ok ((((List.range N).map (· + 1)).filter (fun i => i != index)).zip
          (additiveVec ske (N - 1) rand))
  else if shareType = shamirMode then
    let fs := (ske.setFormat Format.COEFFICIENT) ::
      (List.range (threshold - 1)).map (fun t => (rand t).setFormat Format.COEFFICIENT)
    .ok ((((List.range N).map (· + 1)).filter (fun i => i != index)).map (fun i =>
      (i, (⟨(List.range ep.moduli.length).map (fun k =>
            shamirEvalLimb fs threshold i k (ep.moduli.getD k 0) ep.ringDimension)⟩ : DCRTPoly))))
  else .ok []

/-- The `client_indexes` vector of `RecoverSharedKey`: every party index in
`1..N` present in the share map, in ascending order (the construction scans
`i = 1..N`, so the subsequent `std::sort` is the identity). -/
def clientIndexes (sk_shares : List (ℕ × DCRTPoly)) (N : ℕ) : List ℕ :=
  ((List.range N).map (· + 1)).filter (fun i => (sk_shares.lookup i).isSome)

/-- One step of the duplicate collection: push `x` when the accumulator is
empty or its last element differs from `x`. -/
def dupPush (acc : List ℕ) (x : ℕ) : List ℕ :=
  if acc.isEmpty then acc ++ [x]
  else if acc.getLast? ≠ some x then acc ++ [x]
  else acc

/-- The scan `for i = 1..size-1: if l[i-1] == l[i] then push` over adjacent
elements of the sorted index vector. -/
def collectDupAux (acc : List ℕ) : List ℕ → List ℕ
  | a :: b :: rest =>
    if a = b then collectDupAux (dupPush acc b) (b :: rest)
    else collectDupAux acc (b :: rest)
  | _ => acc

/-- The `duplicate_indexes` vector computed by `RecoverSharedKey`. -/
def collectDuplicates (l : List ℕ) : List ℕ := collectDupAux [] l

/-- The scalar factor `indexpoly.at(l).ModMul(denompoly.at(l), modq_k)`
contributed by index `i` to the Lagrange weight of index `j`:
`i * (i - j)⁻¹ mod q`, the difference corrected to a positive
representative before inversion. -/
def lagrangeTerm (i j q : ℕ) : ℕ := NativeModMul i (modInverse (posDiff i j q) q) q

/-- The slot vector `multpoly` of the Lagrange coefficient of index `j` for
limb modulus `q`: it starts as the all-ones vector of length
`ring_dimension` and is multiplied slotwise, modulo `q`, by the factor of
every other known index. -/
def lagrangeCoeffValues (j : ℕ) (ids : List ℕ) (q n : ℕ) : List ℕ :=
  ids.foldl (fun vals i =>
      if j ≠ i then vals.map (fun v => NativeModMul v (lagrangeTerm i j q) q) else vals)
    (List.replicate n 1)

/-- The scalar carried by every slot of `lagrangeCoeffValues`. -/
def lagrangeWeightFold (j : ℕ) (ids : List ℕ) (q : ℕ) : ℕ :=
  ids.foldl (fun v i => if j ≠ i then NativeModMul v (lagrangeTerm i j q) q else v) 1

/-- The Lagrange weight of index `j` at evaluation point `0` exactly as the
spec states it: the product, over all other known indices `i`, of
`i * (i - j)⁻¹`, reduced by the limb modulus, with inversion performed
modulo the limb modulus and negative differences corrected by adding the
modulus before inverting. -/
def specLagrangeWeight (j : ℕ) (ids : List ℕ) (q : ℕ) : ℕ :=
  (((ids.filter (fun i => decide (j ≠ i))).map
      (fun i => i * modInverse (posDiff i j q) q)).prod) % q

/-- Limb `k` of `lagrange_sum_of_elems`: the slotwise accumulation
`lagrange_sum_of_elems_poly.at(l) += coeff.at(l).ModMul(share.at(l), q)`
over every known index, starting from the all-zero vector.  The outer `+`
is the plain (unreduced) `NativeInteger` addition of the source. -/
def shamirLimbValues (ids : List ℕ) (sk_shares : List (ℕ × DCRTPoly)) (k q n : ℕ) : List ℕ :=
  ids.foldl (fun vals i =>
      (List.range n).map (fun l =>
        vals.getD l 0 +
          NativeModMul ((lagrangeCoeffValues i ids q n).getD l 0)
            (((sk_shares.lookup i).getD defaultDCRTPoly).val k l) q))
    (List.replicate n 0)

/-- `CryptoContextImpl<DCRTPoly>::RecoverSharedKey(sk, sk_shares, N,
threshold, shareType)`.  `skPresent` models the null check on `sk`;
`sk_shares` is the share map as an association list (an `unordered_map`, so
its keys are distinct); the result is the element installed by
`sk->SetPrivateElement`, `none` when no branch installs one (unknown
`shareType`, or the out-of-bounds read `sk_sharesElements[0]` of the source
when no share index lies in `1..N`). -/
def RecoverSharedKey (skPresent : Bool) (ep : ElementParams)
    (sk_shares : List (ℕ × DCRTPoly)) (N threshold : ℕ) (shareType : String) :
    Except CCError (Option DCRTPoly) :=
  if !skPresent then .error .configError
  else if sk_shares.length < threshold then .error .configError
  else if N < 2 then .error .configError
  else if threshold ≤ N / 2 then .error .configError
  else if ep.moduli.any (fun q => decide (q ≤ N)) then .error .notImplementedError
  else
    let client_indexes := clientIndexes sk_shares N
    if (collectDuplicates client_indexes).length ≠ 0 ∧ sk_shares.length = threshold then
      .error .configError
    else if shareType = additiveMode then
      match ((List.range N).map (· + 1)).filterMap (fun i => sk_shares.lookup i) with
      | [] => .ok none
      | e :: rest => .ok (some ((rest.take (threshold - 1)).foldl DCRTPoly.add e))
    else if shareType = shamirMode then
      .ok (some (DCRTPoly.setFormat
        ⟨(List.range ep.moduli.length).map (fun k =>
          ⟨ep.moduli.getD k 0, Format.COEFFICIENT,
            shamirLimbValues client_indexes sk_shares k (ep.moduli.getD k 0) ep.ringDimension⟩)⟩
        Format.EVALUATION))
    else .ok none

/-- A secret key: identity of its producing context and its key tag. -/
structure PrivateKey where
  ctxId : ℕ
  keyTag : String
deriving DecidableEq, Repr

/-- A public key: identity of its producing context and its key tag. -/
structure PublicKey where
  ctxId : ℕ
  keyTag : String
deriving DecidableEq, Repr

/-- An evaluation key: its producing key tag and an identity (`keyId`
models pointer identity of the shared reference-counted object). -/
structure EvalKey where
  keyTag : String
  keyId : ℕ
deriving DecidableEq, Repr

/-- An inner cache entry: rotation-index to evaluation key
(`std::map<usint, EvalKey>`), as an association list in ascending-index
iteration order. -/
abbrev AutoKeyMap := List (ℕ × EvalKey)

/-- A key cache: tag to inner map (`std::map<std::string, ...>`). -/
abbrev AutoKeyCache := List (String × AutoKeyMap)

/-- `cache[tag] = v`: replace the entry when the tag is present, insert it
otherwise. -/
def setTag (cache : List (String × α)) (tag : String) (v : α) : List (String × α) :=
  if (cache.lookup tag).isSome then
    cache.map (fun p => if p.1 = tag then (p.1, v) else p)
  else cache ++ [(tag, v)]

/-- The merge loop of `EvalAtIndexKeyGen`: walk the freshly computed map
and insert a pair into the current rotation map only when its index is not
yet present. -/
def mergeKeyMaps (currRotMap evalKeys : AutoKeyMap) : AutoKeyMap :=
  evalKeys.foldl (fun m p => if (m.lookup p.1).isNone then m ++ [p] else m) currRotMap

/-- `CryptoContextImpl::EvalAtIndexKeyGen(privateKey, indexList,
publicKey)`.  `scheme` is the external backend call
`GetScheme()->EvalAtIndexKeyGen`; the function returns the updated
automorphism key cache. -/
def EvalAtIndexKeyGen (selfCtx : ℕ) (cache : AutoKeyCache)
    (privateKey : Option PrivateKey) (indexList : List ℤ)
    (publicKey : Option PublicKey)
    (scheme : Option PublicKey → PrivateKey → List ℤ → AutoKeyMap) :
    Except CCError AutoKeyCache :=
  match privateKey with
  | none => .error .configError
  | some sk =>
    if sk.ctxId ≠ selfCtx then .error .configError
    else if publicKey.any (fun pk => sk.keyTag != pk.keyTag) then .error .configError
    else
      let evalKeys := scheme publicKey sk indexList
      match cache.lookup sk.keyTag with
      | none => .ok (setTag cache sk.keyTag evalKeys)
      | some currRotMap => .ok (setTag cache sk.keyTag (mergeKeyMaps currRotMap evalKeys))

/-- A ciphertext: producing context identity, key tag, encoding type and
an abstract payload consumed only by the backend. -/
structure Ciphertext where
  ctxId : ℕ
  keyTag : String
  encodingType : ℕ
  payload : ℕ
deriving DecidableEq, Repr

/-- `CryptoContextImpl::EvalAtIndex(ciphertext, index)`.  `scheme` is the
external backend call `GetScheme()->EvalAtIndex`; a null or foreign
ciphertext is a `config_error`, `index == 0` clones the ciphertext before
any registry lookup, and a missing tag in the automorphism cache is the
`not_available_error` thrown by `GetEvalAutomorphismKeyMap`. -/
def EvalAtIndex (selfCtx : ℕ) (cache : AutoKeyCache)
    (scheme : Ciphertext → ℤ → AutoKeyMap → Ciphertext)
    (ciphertext : Option Ciphertext) (index : ℤ) : Except CCError Ciphertext :=
  match ciphertext with
  | none => .error .configError
  | some ct =>
    if ct.ctxId ≠ selfCtx then .error .configError
    else if index = 0 then .ok ct
    else
      match cache.lookup ct.keyTag with
      | none => .error .notAvailableError
      | some m => .ok (scheme ct index m)

/-- The decryption outcome value: `{isValid, scalingFactorInt}`. -/
structure DecryptResult where
  isValid : Bool
  scalingFactorInt : ℕ
deriving DecidableEq, Repr

/-- Modelled from the spec: the default-constructed `DecryptResult` (its
constructor lives outside this repository slice) is the silent invalid
outcome, `isValid = false`; the claims never inspect the initial
`scalingFactorInt`, fixed here at `1`. -/
def DecryptResult.initial : DecryptResult := ⟨false, 1⟩

/-- The decoded plaintext payload (opaque to the orchestration layer). -/
abbrev Plaintext := ℕ

/-- The validation loop of `MultipartyDecryptFusion` from the second share
on: each share is first checked for provenance (null or foreign share is a
`config_error`), then its encoding type is compared against the first
share (`type_error`). -/
def fusionValidateRest (selfCtx firstEnc : ℕ) : List (Option Ciphertext) → Option CCError
  | [] => none
  | none :: _ => some .configError
  | some ct :: rest =>
    if ct.ctxId ≠ selfCtx then some .configError
    else if ct.encodingType ≠ firstEnc then some .typeError
    else fusionValidateRest selfCtx firstEnc rest

/-- The full validation loop of `MultipartyDecryptFusion`: iteration `0`
checks the first share (whose encoding trivially equals itself), the rest
are checked against its encoding type. -/
def fusionValidate (selfCtx : ℕ) : List (Option Ciphertext) → Option CCError
  | [] => none
  | none :: _ => some .configError
  | some c0 :: rest =>
    if c0.ctxId ≠ selfCtx then some .configError
    else fusionValidateRest selfCtx c0.encodingType rest

/-- `CryptoContextImpl<DCRTPoly>::MultipartyDecryptFusion(shares,
&plaintext)`.  `scheme` is the external backend fusion call; `decode`
abstracts the plaintext assembly performed after a valid backend result
(plaintext factory, metadata copy and final decode).  The result pairs the
outcome with the number of backend invocations; the written plaintext is
`none` when the output argument is left untouched. -/
def MultipartyDecryptFusion (selfCtx : ℕ)
    (scheme : List Ciphertext → DecryptResult)
    (decode : List Ciphertext → DecryptResult → Plaintext)
    (partialCiphertextVec : List (Option Ciphertext)) :
    Except CCError (DecryptResult × Option Plaintext) × ℕ :=
  if partialCiphertextVec.length < 1 then (.ok (DecryptResult.initial, none), 0)
  else
    match fusionValidate selfCtx partialCiphertextVec with
    | some e => (.error e, 0)
    | none =>
      let cts := partialCiphertextVec.filterMap id
      let result := scheme cts
      if result.isValid = false then (.ok (result, none), 1)
      else (.ok (result, some (decode cts result)), 1)

/-- `CryptoContextImpl::InsertEvalSumKey(mapToInsert)`: an empty map is
ignored; otherwise the map is stored under the key tag of its first
element. -/
def InsertEvalSumKey (cache : AutoKeyCache) (mapToInsert : AutoKeyMap) : AutoKeyCache :=
  match mapToInsert with
  | [] => cache
  | onekey :: _ => setTag cache onekey.2.keyTag mapToInsert

instance (ep : ElementParams) (p : DCRTPoly) : Decidable (p.wf ep) := by
  unfold DCRTPoly.wf; infer_instance

/-! Concrete inputs used by the closed witness and counterexample
theorems below: a one-limb, one-slot parameter set with modulus `5`, a
secret element, a fixed draw for the uniform random stream, concrete
shares, keys and ciphertexts. -/

/-- Parameter set with ring dimension 1 and the single limb modulus 5. -/
def ep5 : ElementParams := ⟨1, [5]⟩

/-- Concrete secret element: stored word 3 in the transform domain. -/
def skePoly : DCRTPoly := ⟨[⟨5, Format.EVALUATION, [3]⟩]⟩

/-- Concrete uniform draw: stored word 1 in the transform domain. -/
def randPoly : DCRTPoly := ⟨[⟨5, Format.EVALUATION, [1]⟩]⟩

/-- A constant random stream producing `randPoly`. -/
def randConst : ℕ → DCRTPoly := fun _ => randPoly

/-- Concrete Shamir share of party 1 (coefficient domain, word 2). -/
def pC1 : DCRTPoly := ⟨[⟨5, Format.COEFFICIENT, [2]⟩]⟩

/-- Concrete Shamir share of party 2 (coefficient domain, word 3). -/
def pC2 : DCRTPoly := ⟨[⟨5, Format.COEFFICIENT, [3]⟩]⟩

/-- Concrete share of party 3 (word 4). -/
def pC3 : DCRTPoly := ⟨[⟨5, Format.COEFFICIENT, [4]⟩]⟩

/-- A key tag used by the concrete registry scenarios. -/
def tagT : String := "rotTag"

/-- A second key tag, initially absent from the caches. -/
def tagU : String := "otherTag"

/-- Evaluation key inserted at index 1 by the first generation. -/
def K1 : EvalKey := ⟨tagT, 1⟩

/-- Evaluation key inserted at index 2 by the first generation. -/
def K2 : EvalKey := ⟨tagT, 2⟩

/-- Evaluation key freshly recomputed for index 2 by the second
generation; distinct identity from `K2`. -/
def K2x : EvalKey := ⟨tagT, 3⟩

/-- Evaluation key inserted at index 3 by the second generation. -/
def K3 : EvalKey := ⟨tagT, 4⟩

/-- The secret key owning `tagT`, produced by context 0. -/
def skT : PrivateKey := ⟨0, tagT⟩

/-- Backend key generation of the second call: indices 2 and 3. -/
def scheme2 : Option PublicKey → PrivateKey → List ℤ → AutoKeyMap :=
  fun _ _ _ => [(2, K2x), (3, K3)]

/-- The automorphism cache after the first generation for `tagT`. -/
def cacheT : AutoKeyCache := [(tagT, [(1, K1), (2, K2)])]

/-- Concrete ciphertext with encoding type 0. -/
def ctA : Ciphertext := ⟨0, tagT, 0, 7⟩

/-- Concrete ciphertext with encoding type 1 (differs from `ctA`). -/
def ctB : Ciphertext := ⟨0, tagT, 1, 8⟩

/-- A backend fusion stub returning a valid result. -/
def backendValid : List Ciphertext → DecryptResult := fun _ => ⟨true, 1⟩

/-- A decode stub. -/
def decode0 : List Ciphertext → DecryptResult → Plaintext := fun _ _ => 0

/-- A rotation backend stub returning its input ciphertext. -/
def schemeRot : Ciphertext → ℤ → AutoKeyMap → Ciphertext := fun ct _ _ => ct

/-! Helper lemmas about association lists, sorted index lists and modular
folds.  These are shared by the claim theorems below. -/

theorem lookup_append {α β : Type} [BEq α] (a : α) (l₁ l₂ : List (α × β)) :
    List.lookup a (l₁ ++ l₂) = (List.lookup a l₁).or (List.lookup a l₂) := by
  induction l₁ with
  | nil => simp [List.lookup]
  | cons p t ih => simp [List.lookup]; split <;> simp [ih]

theorem lookup_isSome_iff {β : Type} (a : ℕ) (l : List (ℕ × β)) :
    (List.lookup a l).isSome = true ↔ a ∈ l.map Prod.fst := by
  induction l with
  | nil => simp [List.lookup]
  | cons p t ih =>
    simp only [List.lookup, List.map_cons, List.mem_cons]
    rcases eq_or_ne a p.1 with h | h
    · subst h; simp
    · rw [show (a == p.1) = false from beq_eq_false_iff_ne.mpr h]
      simp [h, ih]

theorem lookup_eq_some_of_mem {β : Type} : ∀ {l : List (ℕ × β)},
    (l.map Prod.fst).Nodup → ∀ {a : ℕ} {b : β}, (a, b) ∈ l → List.lookup a l = some b := by
  intro l
  induction l with
  | nil => intro _ a b hm; simp at hm
  | cons p t ih =>
    intro hnd a b hm
    simp only [List.map_cons, List.nodup_cons] at hnd
    rcases List.mem_cons.mp hm with h | h
    · cases h; simp [List.lookup]
    · have hne : a ≠ p.1 := by
        intro he
        exact hnd.1 (he ▸ (List.mem_map.mpr ⟨(a, b), h, rfl⟩))
      simp only [List.lookup]
      rw [show (a == p.1) = false from beq_eq_false_iff_ne.mpr hne]
      exact ih hnd.2 h

theorem sorted_eq_of_mem_iff : ∀ {l₁ l₂ : List ℕ}, l₁.Pairwise (· < ·) →
    l₂.Pairwise (· < ·) → (∀ x, x ∈ l₁ ↔ x ∈ l₂) → l₁ = l₂ := by
  intro l₁
  induction l₁ with
  | nil =>
    intro l₂ _ _ hm
    exact (List.eq_nil_iff_forall_not_mem.mpr (fun x hx => by simpa using (hm x).mpr hx)).symm
  | cons a t ih =>
    intro l₂ h₁ h₂ hm
    cases l₂ with
    | nil => exact absurd ((hm a).mp (by simp)) (by simp)
    | cons b s =>
      obtain ⟨ha₁, ht₁⟩ := List.pairwise_cons.mp h₁
      obtain ⟨hb₂, hs₂⟩ := List.pairwise_cons.mp h₂
      have hab : a = b := by
        rcases List.mem_cons.mp ((hm a).mp (by simp)) with h | h
        · exact h
        · rcases List.mem_cons.mp ((hm b).mpr (by simp)) with h' | h'
          · exact h'.symm
          · exact absurd (Nat.lt_trans (hb₂ a h) (ha₁ b h')) (Nat.lt_irrefl b)
      subst hab
      have hts : ∀ x, x ∈ t ↔ x ∈ s := by
        intro x
        constructor
        · intro hx
          rcases List.mem_cons.mp ((hm x).mp (List.mem_cons_of_mem a hx)) with h | h
          · exact absurd (h ▸ ha₁ x hx) (Nat.lt_irrefl _)
          · exact h
        · intro hx
          rcases List.mem_cons.mp ((hm x).mpr (List.mem_cons_of_mem a hx)) with h | h
          · exact absurd (h ▸ hb₂ x hx) (Nat.lt_irrefl _)
          · exact h
      exact congrArg (a :: ·) (ih ht₁ hs₂ hts)

theorem filterMap_lookup_eq_map_snd {β : Type} {lk : ℕ → Option β} : ∀ {L : List (ℕ × β)},
    (∀ p ∈ L, lk p.1 = some p.2) → (L.map Prod.fst).filterMap lk = L.map Prod.snd := by
  intro L
  induction L with
  | nil => intro _; rfl
  | cons p t ih =>
    intro h
    simp only [List.map_cons, List.filterMap_cons, h p (by simp)]
    exact congrArg (p.2 :: ·) (ih (fun x hx => h x (by simp [hx])))

theorem map_lookup_eq {β γ : Type} {lk : ℕ → Option β} (d : β) (g : ℕ → β → γ) :
    ∀ {L : List (ℕ × β)}, (∀ p ∈ L, lk p.1 = some p.2) →
    (L.map Prod.fst).map (fun i => g i ((lk i).getD d)) = L.map (fun p => g p.1 p.2) := by
  intro L
  induction L with
  | nil => intro _; rfl
  | cons p t ih =>
    intro h
    simp only [List.map_cons, h p (by simp), Option.getD_some]
    exact congrArg (g p.1 p.2 :: ·) (ih (fun x hx => h x (by simp [hx])))

theorem filterMap_eq_filterMap_filter {α β : Type} (f : α → Option β) : ∀ (l : List α),
    l.filterMap f = (l.filter (fun a => (f a).isSome)).filterMap f := by
  intro l
  induction l with
  | nil => rfl
  | cons a t ih =>
    cases h : f a with
    | none => simp [List.filterMap_cons, List.filter_cons, h, ih]
    | some b => simp [List.filterMap_cons, List.filter_cons, h, ← ih]

theorem foldl_if_filter {α β : Type} (p : α → Prop) [DecidablePred p] (g : β → α → β) :
    ∀ (l : List α) (a : β),
    l.foldl (fun acc i => if p i then g acc i else acc) a =
      (l.filter (fun i => decide (p i))).foldl g a := by
  intro l
  induction l with
  | nil => intro a; rfl
  | cons x t ih =>
    intro a
    by_cases hx : p x <;> simp [List.filter_cons, hx, ih]

theorem foldl_mulmod (f : ℕ → ℕ) (q : ℕ) : ∀ (l : List ℕ) (a : ℕ),
    l.foldl (fun acc i => acc * (f i % q) % q) (a % q) = a * (l.map f).prod % q := by
  intro l
  induction l with
  | nil => intro a; simp
  | cons i t ih =>
    intro a
    simp only [List.foldl_cons, List.map_cons, List.prod_cons]
    have h1 : a % q * (f i % q) % q = a * f i % q := by
      conv_rhs => rw [Nat.mul_mod]
    rw [h1, ih (a * f i), Nat.mul_assoc]

theorem dupAux_pairwise : ∀ (l : List ℕ), l.Pairwise (· < ·) → ∀ (acc : List ℕ),
    collectDupAux acc l = acc
  | [], _, acc => rfl
  | [_], _, acc => rfl
  | a :: b :: rest, h, acc => by
    have hab : a < b := (List.pairwise_cons.mp h).1 b (by simp)
    have ht : (b :: rest).Pairwise (· < ·) := (List.pairwise_cons.mp h).2
    rw [collectDupAux, if_neg (Nat.ne_of_lt hab)]
    exact dupAux_pairwise (b :: rest) ht acc

theorem collectDuplicates_sorted {l : List ℕ} (h : l.Pairwise (· < ·)) :
    collectDuplicates l = [] :=
  dupAux_pairwise l h []

theorem clientIndexes_sorted (s : List (ℕ × DCRTPoly)) (N : ℕ) :
    (clientIndexes s N).Pairwise (· < ·) :=
  ((List.pairwise_lt_range N).map _ (fun h => by omega)).filter _

theorem mem_clientIndexes {s : List (ℕ × DCRTPoly)} {N i : ℕ} :
    i ∈ clientIndexes s N ↔ (1 ≤ i ∧ i ≤ N ∧ (s.lookup i).isSome = true) := by
  unfold clientIndexes
  simp only [List.mem_filter, List.mem_map, List.mem_range]
  constructor
  · rintro ⟨⟨a, ha, rfl⟩, hs⟩
    exact ⟨by omega, by omega, hs⟩
  · rintro ⟨h1, hN, hs⟩
    exact ⟨⟨i - 1, by omega, by omega⟩, hs⟩

theorem clientIndexes_eq_keys {s L : List (ℕ × DCRTPoly)} {N : ℕ}
    (hperm : L.Perm s) (hsorted : L.Pairwise (fun a b => a.1 < b.1))
    (hrange : ∀ p ∈ s, 1 ≤ p.1 ∧ p.1 ≤ N) :
    clientIndexes s N = L.map Prod.fst := by
  apply sorted_eq_of_mem_iff (clientIndexes_sorted s N) (hsorted.map _ (fun a b h => h))
  intro x
  rw [mem_clientIndexes, lookup_isSome_iff]
  have hmm : x ∈ L.map Prod.fst ↔ x ∈ s.map Prod.fst := (hperm.map Prod.fst).mem_iff
  constructor
  · rintro ⟨-, -, hx⟩
    exact hmm.mpr hx
  · intro hx
    obtain ⟨p, hp, rfl⟩ := List.mem_map.mp (hmm.mp hx)
    exact ⟨(hrange p hp).1, (hrange p hp).2, hmm.mp hx⟩

theorem foldl_vec_scalar (n : ℕ) (step : ℕ → ℕ → ℕ) (keep : ℕ → Prop) [DecidablePred keep] :
    ∀ (ids : List ℕ) (c : ℕ),
    ids.foldl (fun vals i => if keep i then vals.map (fun v => step v i) else vals)
        (List.replicate n c) =
      List.replicate n (ids.foldl (fun v i => if keep i then step v i else v) c) := by
  intro ids
  induction ids with
  | nil => intro c; rfl
  | cons i t ih =>
    intro c
    simp only [List.foldl_cons]
    by_cases hi : keep i
    · rw [if_pos hi, if_pos hi, List.map_replicate]
      exact ih (step c i)
    · rw [if_neg hi, if_neg hi]
      exact ih c

theorem lagrangeCoeffValues_replicate (j : ℕ) (ids : List ℕ) (q n : ℕ) :
    lagrangeCoeffValues j ids q n = List.replicate n (lagrangeWeightFold j ids q) :=
  foldl_vec_scalar n (fun v i => NativeModMul v (lagrangeTerm i j q) q) (fun i => j ≠ i) ids 1

theorem lagrangeWeightFold_eq_spec (j : ℕ) (ids : List ℕ) {q : ℕ} (hq : 1 < q) :
    lagrangeWeightFold j ids q = specLagrangeWeight j ids q := by
  unfold lagrangeWeightFold specLagrangeWeight
  rw [foldl_if_filter (fun i => j ≠ i) (fun v i => NativeModMul v (lagrangeTerm i j q) q) ids 1]
  simp only [NativeModMul, lagrangeTerm]
  rw [show (1 : ℕ) = 1 % q from (Nat.mod_eq_of_lt hq).symm,
    foldl_mulmod (fun i => i * modInverse (posDiff i j q) q) q
      (ids.filter (fun i => decide (j ≠ i))) 1, one_mul]

theorem lookup_map_replace {α : Type} (tag : String) (v : α) :
    ∀ (cache : List (String × α)) (t : String),
    (cache.map (fun p => if p.1 = tag then (p.1, v) else p)).lookup t =
      if t = tag then (cache.lookup tag).map (fun _ => v) else cache.lookup t := by
  intro cache
  induction cache with
  | nil => intro t; by_cases h : t = tag <;> simp [List.lookup, h]
  | cons p c ih =>
    intro t
    simp only [List.map_cons]
    by_cases hp : p.1 = tag
    · rw [if_pos hp]
      by_cases ht : t = p.1
      · have ht2 : t = tag := ht.trans hp
        rw [if_pos ht2]
        simp only [List.lookup, show (t == p.1) = true from beq_iff_eq.mpr ht,
          show (tag == p.1) = true from beq_iff_eq.mpr hp.symm]
        rfl
      · have ht2 : t ≠ tag := fun h => ht (h.trans hp.symm)
        rw [if_neg ht2]
        simp only [List.lookup, show (t == p.1) = false from beq_eq_false_iff_ne.mpr ht]
        rw [ih t, if_neg ht2]
    · rw [if_neg hp]
      by_cases ht : t = p.1
      · have ht2 : t ≠ tag := fun h => hp (ht.symm.trans h)
        rw [if_neg ht2]
        simp only [List.lookup, show (t == p.1) = true from beq_iff_eq.mpr ht]
      · simp only [List.lookup, show (t == p.1) = false from beq_eq_false_iff_ne.mpr ht]
        rw [ih t]
        by_cases ht2 : t = tag
        · rw [if_pos ht2, if_pos ht2]
          simp only [List.lookup,
            show (tag == p.1) = false from beq_eq_false_iff_ne.mpr (fun h => hp h.symm)]
        · rw [if_neg ht2, if_neg ht2]

theorem setTag_lookup_self {α : Type} (cache : List (String × α)) (tag : String) (v : α) :
    (setTag cache tag v).lookup tag = some v := by
  unfold setTag
  by_cases h : (cache.lookup tag).isSome = true
  · rw [if_pos h, lookup_map_replace, if_pos rfl]
    obtain ⟨w, hw⟩ := Option.isSome_iff_exists.mp h
    rw [hw]; rfl
  · rw [if_neg h, lookup_append]
    rw [Option.not_isSome_iff_eq_none.mp h]
    simp [List.lookup]

theorem setTag_lookup_other {α : Type} (cache : List (String × α)) (tag t : String) (v : α)
    (h : t ≠ tag) : (setTag cache tag v).lookup t = cache.lookup t := by
  unfold setTag
  by_cases hs : (cache.lookup tag).isSome = true
  · rw [if_pos hs, lookup_map_replace, if_neg h]
  · rw [if_neg hs, lookup_append]
    simp [List.lookup, show (t == tag) = false from beq_eq_false_iff_ne.mpr h]

theorem mergeKeyMaps_preserves : ∀ (ks curr : AutoKeyMap) (i : ℕ) (k : EvalKey),
    curr.lookup i = some k → (mergeKeyMaps curr ks).lookup i = some k := by
  intro ks
  induction ks with
  | nil => intro curr i k h; simpa [mergeKeyMaps] using h
  | cons p t ih =>
    intro curr i k h
    simp only [mergeKeyMaps, List.foldl_cons]
    by_cases hp : (curr.lookup p.1).isNone = true
    · rw [if_pos hp]
      have h2 : (curr ++ [p]).lookup i = some k := by
        rw [lookup_append, h]; rfl
      exact ih (curr ++ [p]) i k h2
    · rw [if_neg hp]
      exact ih curr i k h

theorem mergeKeyMaps_new : ∀ (ks curr : AutoKeyMap) (i : ℕ),
    curr.lookup i = none → (mergeKeyMaps curr ks).lookup i = ks.lookup i := by
  intro ks
  induction ks with
  | nil => intro curr i h; simpa [mergeKeyMaps, List.lookup] using h
  | cons p t ih =>
    intro curr i h
    simp only [mergeKeyMaps, List.foldl_cons]
    by_cases hpi : i = p.1
    · rw [if_pos (by rw [← hpi, h]; rfl)]
      have h2 : (curr ++ [p]).lookup i = some p.2 := by
        rw [lookup_append, h]
        simp [List.lookup, show (i == p.1) = true from beq_iff_eq.mpr hpi]
      have h3 := mergeKeyMaps_preserves t (curr ++ [p]) i p.2 h2
      simp only [mergeKeyMaps] at h3
      rw [h3]
      simp [List.lookup, show (i == p.1) = true from beq_iff_eq.mpr hpi]
    · have hk : (p :: t).lookup i = t.lookup i := by
        simp [List.lookup, show (i == p.1) = false from beq_eq_false_iff_ne.mpr hpi]
      rw [hk]
      by_cases hp : (curr.lookup p.1).isNone = true
      · rw [if_pos hp]
        have h2 : (curr ++ [p]).lookup i = none := by
          rw [lookup_append, h]
          simp [List.lookup, show (i == p.1) = false from beq_eq_false_iff_ne.mpr hpi]
        exact ih (curr ++ [p]) i h2
      · rw [if_neg hp]
        exact ih curr i h

theorem getD_zipWith {α : Type} (f : α → α → α) (d : α) (l₁ l₂ : List α) (i : ℕ)
    (h₁ : i < l₁.length) (h₂ : i < l₂.length) :
    (List.zipWith f l₁ l₂).getD i d = f (l₁.getD i d) (l₂.getD i d) := by
  rw [List.getD_eq_getElem _ _ (by rw [List.length_zipWith]; omega),
    List.getD_eq_getElem _ _ h₁, List.getD_eq_getElem _ _ h₂]
  exact List.getElem_zipWith

theorem add_val {ep : ElementParams} {a b : DCRTPoly} (ha : a.wf ep) (hb : b.wf ep)
    {k l : ℕ} (hk : k < ep.moduli.length) (hl : l < ep.ringDimension) :
    (a.add b).val k l = (a.val k l + b.val k l) % ep.moduli.getD k 0 := by
  unfold DCRTPoly.val DCRTPoly.add
  rw [getD_zipWith NativePoly.modAdd defaultNativePoly a.limbs b.limbs k
    (by rw [ha.1]; exact hk) (by rw [hb.1]; exact hk)]
  unfold NativePoly.modAdd
  rw [getD_zipWith _ 0 _ _ l (by rw [(ha.2 k hk).2.1]; exact hl)
    (by rw [(hb.2 k hk).2.1]; exact hl)]
  rw [(ha.2 k hk).1]

theorem sub_val {ep : ElementParams} {a b : DCRTPoly} (ha : a.wf ep) (hb : b.wf ep)
    {k l : ℕ} (hk : k < ep.moduli.length) (hl : l < ep.ringDimension) :
    (a.sub b).val k l =
      (a.val k l + (ep.moduli.getD k 0 - b.val k l % ep.moduli.getD k 0)) %
        ep.moduli.getD k 0 := by
  unfold DCRTPoly.val DCRTPoly.sub
  rw [getD_zipWith NativePoly.modSub defaultNativePoly a.limbs b.limbs k
    (by rw [ha.1]; exact hk) (by rw [hb.1]; exact hk)]
  unfold NativePoly.modSub
  rw [getD_zipWith _ 0 _ _ l (by rw [(ha.2 k hk).2.1]; exact hl)
    (by rw [(hb.2 k hk).2.1]; exact hl)]
  rw [(ha.2 k hk).1]

theorem add_wf {ep : ElementParams} {a b : DCRTPoly} (ha : a.wf ep) (hb : b.wf ep) :
    (a.add b).wf ep := by
  refine ⟨?_, ?_⟩
  · unfold DCRTPoly.add
    simp [List.length_zipWith, ha.1, hb.1]
  · intro k hk
    have hlimb : (a.add b).limbs.getD k defaultNativePoly =
        NativePoly.modAdd (a.limbs.getD k defaultNativePoly) (b.limbs.getD k defaultNativePoly) :=
      getD_zipWith NativePoly.modAdd defaultNativePoly a.limbs b.limbs k
        (by rw [ha.1]; exact hk) (by rw [hb.1]; exact hk)
    refine ⟨?_, ?_, ?_⟩
    · rw [hlimb]; exact (ha.2 k hk).1
    · rw [hlimb]
      simp only [NativePoly.modAdd, List.length_zipWith]
      rw [(ha.2 k hk).2.1, (hb.2 k hk).2.1, Nat.min_self]
    · intro l hl
      have hq : 0 < ep.moduli.getD k 0 :=
        Nat.lt_of_le_of_lt (Nat.zero_le _) ((ha.2 k hk).2.2 l hl)
      rw [add_val ha hb hk hl]
      exact Nat.mod_lt _ hq

theorem sub_wf {ep : ElementParams} {a b : DCRTPoly} (ha : a.wf ep) (hb : b.wf ep)
    (hq : ∀ k, k < ep.moduli.length → 0 < ep.moduli.getD k 0) :
    (a.sub b).wf ep := by
  refine ⟨?_, ?_⟩
  · unfold DCRTPoly.sub
    simp [List.length_zipWith, ha.1, hb.1]
  · intro k hk
    have hlimb : (a.sub b).limbs.getD k defaultNativePoly =
        NativePoly.modSub (a.limbs.getD k defaultNativePoly) (b.limbs.getD k defaultNativePoly) :=
      getD_zipWith NativePoly.modSub defaultNativePoly a.limbs b.limbs k
        (by rw [ha.1]; exact hk) (by rw [hb.1]; exact hk)
    refine ⟨?_, ?_, ?_⟩
    · rw [hlimb]; exact (ha.2 k hk).1
    · rw [hlimb]
      simp only [NativePoly.modSub, List.length_zipWith]
      rw [(ha.2 k hk).2.1, (hb.2 k hk).2.1, Nat.min_self]
    · intro l hl
      rw [sub_val ha hb hk hl]
      exact Nat.mod_lt _ (hq k hk)

theorem foldl_add_wf {ep : ElementParams} : ∀ (ds : List DCRTPoly) (acc : DCRTPoly),
    acc.wf ep → (∀ d ∈ ds, d.wf ep) → (ds.foldl DCRTPoly.add acc).wf ep := by
  intro ds
  induction ds with
  | nil => intro acc h _; exact h
  | cons d t ih =>
    intro acc h hall
    exact ih (acc.add d) (add_wf h (hall d (by simp))) (fun x hx => hall x (by simp [hx]))

theorem foldl_add_val {ep : ElementParams} : ∀ (ds : List DCRTPoly) (acc : DCRTPoly),
    acc.wf ep → (∀ d ∈ ds, d.wf ep) →
    ∀ k, k < ep.moduli.length → ∀ l, l < ep.ringDimension →
    (ds.foldl DCRTPoly.add acc).val k l =
      (acc.val k l + (ds.map (fun d => d.val k l)).sum) % ep.moduli.getD k 0 := by
  intro ds
  induction ds with
  | nil =>
    intro acc h _ k hk l hl
    simp only [List.foldl_nil, List.map_nil, List.sum_nil, Nat.add_zero]
    exact (Nat.mod_eq_of_lt ((h.2 k hk).2.2 l hl)).symm
  | cons d t ih =>
    intro acc h hall k hk l hl
    simp only [List.foldl_cons, List.map_cons, List.sum_cons]
    rw [ih (acc.add d) (add_wf h (hall d (by simp))) (fun x hx => hall x (by simp [hx])) k hk l hl]
    rw [add_val h (hall d (by simp)) hk hl, Nat.mod_add_mod, Nat.add_assoc]

theorem additive_sum_recover {q S s : ℕ} (hq : 0 < q) (hs : s < q) :
    (S + (s + (q - S % q)) % q) % q = s := by
  have hd : S % q < q := Nat.mod_lt _ hq
  calc (S + (s + (q - S % q)) % q) % q
      = (S + (s + (q - S % q))) % q := Nat.add_mod_mod ..
    _ = (S % q + (s + (q - S % q))) % q := (Nat.mod_add_mod ..).symm
    _ = (s + q) % q := by
        have he : S % q + (s + (q - S % q)) = s + q := by omega
        rw [he]
    _ = s % q := Nat.add_mod_right s q
    _ = s := Nat.mod_eq_of_lt hs

theorem foldl_slotAcc (n : ℕ) (g : ℕ → ℕ → ℕ) : ∀ (ids : List ℕ) (vals : List ℕ),
    vals.length = n →
    (ids.foldl (fun vals i => (List.range n).map (fun l => vals.getD l 0 + g i l)) vals).length
        = n ∧
    ∀ l, l < n →
      (ids.foldl (fun vals i =>
          (List.range n).map (fun l => vals.getD l 0 + g i l)) vals).getD l 0 =
        vals.getD l 0 + (ids.map (fun i => g i l)).sum := by
  intro ids
  induction ids with
  | nil => intro vals h; exact ⟨h, fun l hl => by simp⟩
  | cons i t ih =>
    intro vals h
    simp only [List.foldl_cons]
    have hlen : ((List.range n).map (fun l => vals.getD l 0 + g i l)).length = n := by simp
    obtain ⟨ih1, ih2⟩ := ih _ hlen
    refine ⟨ih1, fun l hl => ?_⟩
    rw [ih2 l hl]
    have hstep : ((List.range n).map (fun l => vals.getD l 0 + g i l)).getD l 0 =
        vals.getD l 0 + g i l := by
      rw [List.getD_eq_getElem _ _ (by simpa using hl)]
      simp
    rw [hstep]
    simp [Nat.add_assoc]

theorem shamirLimbValues_spec (ids : List ℕ) (s : List (ℕ × DCRTPoly)) (k q n : ℕ) :
    (shamirLimbValues ids s k q n).length = n ∧
    ∀ l, l < n → (shamirLimbValues ids s k q n).getD l 0 =
      (ids.map (fun i =>
        NativeModMul ((lagrangeCoeffValues i ids q n).getD l 0)
          (((s.lookup i).getD defaultDCRTPoly).val k l) q)).sum := by
  unfold shamirLimbValues
  obtain ⟨h1, h2⟩ := foldl_slotAcc n (fun i l =>
      NativeModMul ((lagrangeCoeffValues i ids q n).getD l 0)
        (((s.lookup i).getD defaultDCRTPoly).val k l) q) ids (List.replicate n 0) (by simp)
  refine ⟨h1, fun l hl => ?_⟩
  rw [h2 l hl, List.getD_eq_getElem _ _ (by simpa using hl)]
  simp

/-! Claim theorems. -/

/-- C8: `MultipartyDecryptFusion` on the empty share list returns the
default-constructed invalid `DecryptResult` silently: no error is raised,
the output plaintext stays unwritten, and the backend is never invoked. -/
theorem multipartyDecryptFusion_empty (selfCtx : ℕ)
    (scheme : List Ciphertext → DecryptResult)
    (decode : List Ciphertext → DecryptResult → Plaintext) :
    MultipartyDecryptFusion selfCtx scheme decode [] = (.ok (DecryptResult.initial, none), 0) ∧
    DecryptResult.initial.isValid = false :=
  ⟨rfl, rfl⟩

/-- C8 witness: the empty-list behaviour at a concrete context and
concrete stubs. -/
theorem multipartyDecryptFusion_empty_witness :
    MultipartyDecryptFusion 0 backendValid decode0 [] =
      (.ok (DecryptResult.initial, none), 0) ∧
    DecryptResult.initial.isValid = false :=
  multipartyDecryptFusion_empty 0 backendValid decode0

/-- C10: `InsertEvalSumKey` with an empty key map raises no error and
leaves the summation key cache unchanged; with a non-empty map it stores
the map under the key tag of the first element, leaving the entry of every
other tag unchanged. -/
theorem insertEvalSumKey_frame (cache : AutoKeyCache) :
    (InsertEvalSumKey cache [] = cache) ∧
    ∀ (onekey : ℕ × EvalKey) (rest : AutoKeyMap),
      (InsertEvalSumKey cache (onekey :: rest)).lookup onekey.2.keyTag =
          some (onekey :: rest) ∧
      ∀ t, t ≠ onekey.2.keyTag →
        (InsertEvalSumKey cache (onekey :: rest)).lookup t = cache.lookup t := by
  refine ⟨rfl, fun onekey rest => ⟨?_, fun t ht => ?_⟩⟩
  · exact setTag_lookup_self ..
  · exact setTag_lookup_other _ _ _ _ ht

/-- C10 witness: inserting a concrete two-key map into a cache holding an
unrelated tag stores it under the tag of the first element and leaves the
unrelated entry unchanged. -/
theorem insertEvalSumKey_frame_witness :
    (InsertEvalSumKey [(tagU, [(5, K1)])] [(1, K1), (2, K2)]).lookup ((1, K1).2.keyTag) =
        some [(1, K1), (2, K2)] ∧
    (InsertEvalSumKey [(tagU, [(5, K1)])] [(1, K1), (2, K2)]).lookup tagU =
        [(tagU, [(5, K1)])].lookup tagU := by
  obtain ⟨-, h2⟩ := insertEvalSumKey_frame [(tagU, [(5, K1)])]
  obtain ⟨h3, h4⟩ := h2 (1, K1) [(2, K2)]
  exact ⟨h3, h4 tagU (by decide)⟩

/-- C5: `EvalAtIndex` with index 0 on a ciphertext of this context returns
a value-equal copy without consulting the automorphism key cache (the
result is the same for every cache, including the empty one); a nonzero
index requires registered automorphism keys for the tag of the ciphertext,
failing with the not-available (NotFound) error when they are absent, and
otherwise delegates to the backend with the registered map. -/
theorem evalAtIndex_zero_and_rotate (selfCtx : ℕ) (ct : Ciphertext)
    (scheme : Ciphertext → ℤ → AutoKeyMap → Ciphertext)
    (hown : ct.ctxId = selfCtx) :
    (∀ cache : AutoKeyCache, EvalAtIndex selfCtx cache scheme (some ct) 0 = .ok ct) ∧
    (∀ (cache : AutoKeyCache) (index : ℤ), index ≠ 0 →
      (cache.lookup ct.keyTag = none →
        EvalAtIndex selfCtx cache scheme (some ct) index = .error .notAvailableError) ∧
      (∀ m, cache.lookup ct.keyTag = some m →
        EvalAtIndex selfCtx cache scheme (some ct) index = .ok (scheme ct index m))) := by
  constructor
  · intro cache
    simp [EvalAtIndex, hown]
  · intro cache index hidx
    constructor
    · intro hnone
      simp [EvalAtIndex, hown, hidx, hnone]
    · intro m hm
      simp [EvalAtIndex, hown, hidx, hm]

/-- C5 witness: rotation by 0 succeeds on the empty cache and returns the
input; rotation by 1 fails on the empty cache and delegates on a cache
holding keys for the tag. -/
theorem evalAtIndex_zero_and_rotate_witness :
    EvalAtIndex 0 [] schemeRot (some ctA) 0 = .ok ctA ∧
    EvalAtIndex 0 [] schemeRot (some ctA) 1 = .error .notAvailableError ∧
    EvalAtIndex 0 cacheT schemeRot (some ctA) 1 = .ok (schemeRot ctA 1 [(1, K1), (2, K2)]) := by
  obtain ⟨h1, h2⟩ := evalAtIndex_zero_and_rotate 0 ctA schemeRot rfl
  refine ⟨h1 [], ?_, ?_⟩
  · exact (h2 [] 1 (by decide)).1 rfl
  · exact (h2 cacheT 1 (by decide)).2 [(1, K1), (2, K2)] (by decide)

/-- C2: when the automorphism key cache already holds a map for the tag of
the secret key, a second `EvalAtIndexKeyGen` merges: the cached map becomes
the merge of the current map with the freshly computed keys, every index
already present keeps its existing key object (the freshly computed key is
discarded), every index absent from the current map receives the freshly
computed key, and the entry of every other tag is untouched. -/
theorem evalAtIndexKeyGen_merge (selfCtx : ℕ) (cache : AutoKeyCache) (sk : PrivateKey)
    (indexList : List ℤ) (scheme : Option PublicKey → PrivateKey → List ℤ → AutoKeyMap)
    (curr : AutoKeyMap) (hown : sk.ctxId = selfCtx)
    (hcur : cache.lookup sk.keyTag = some curr) :
    ∃ cache2, EvalAtIndexKeyGen selfCtx cache (some sk) indexList none scheme = .ok cache2 ∧
      cache2.lookup sk.keyTag = some (mergeKeyMaps curr (scheme none sk indexList)) ∧
      (∀ i k, curr.lookup i = some k →
        (mergeKeyMaps curr (scheme none sk indexList)).lookup i = some k) ∧
      (∀ i, curr.lookup i = none →
        (mergeKeyMaps curr (scheme none sk indexList)).lookup i =
          (scheme none sk indexList).lookup i) ∧
      (∀ t, t ≠ sk.keyTag → cache2.lookup t = cache.lookup t) := by
  refine ⟨setTag cache sk.keyTag (mergeKeyMaps curr (scheme none sk indexList)),
    ?_, ?_, ?_, ?_, ?_⟩
  · simp [EvalAtIndexKeyGen, hown, hcur]
  · exact setTag_lookup_self ..
  · exact fun i k h => mergeKeyMaps_preserves _ curr i k h
  · exact fun i h => mergeKeyMaps_new _ curr i h
  · exact fun t ht => setTag_lookup_other _ _ _ _ ht

/-- C2 witness: generating indices 1 and 2, then 2 and 3, for one tag
yields the cached index set 1, 2, 3; the key stored under index 2 stays
the object inserted by the first call (the freshly recomputed `K2x` is
discarded). -/
theorem evalAtIndexKeyGen_merge_witness :
    (mergeKeyMaps [(1, K1), (2, K2)] (scheme2 none skT []) = [(1, K1), (2, K2), (3, K3)] ∧
      (mergeKeyMaps [(1, K1), (2, K2)] (scheme2 none skT [])).lookup 2 = some K2 ∧
      K2 ≠ K2x) ∧
    ∃ cache2, EvalAtIndexKeyGen 0 cacheT (some skT) [] none scheme2 = .ok cache2 ∧
      cache2.lookup skT.keyTag = some (mergeKeyMaps [(1, K1), (2, K2)] (scheme2 none skT [])) := by
  refine ⟨by decide, ?_⟩
  obtain ⟨c2, h1, h2, -, -, -⟩ :=
    evalAtIndexKeyGen_merge 0 cacheT skT [] scheme2 [(1, K1), (2, K2)] rfl (by decide)
  exact ⟨c2, h1, h2⟩

/-- C3 (amended): when some limb modulus does not exceed N and the
preceding size and threshold checks pass, `ShareKeys` fails with the math
error while `RecoverSharedKey` fails with the not-implemented error, in
every sharing mode. -/
theorem shareManager_modulus_guard (ep : ElementParams) (N threshold : ℕ)
    (hN : 2 ≤ N) (ht : N / 2 < threshold) (hbad : ∃ q ∈ ep.moduli, q ≤ N) :
    (∀ (ske : DCRTPoly) (index : ℕ) (shareType : String) (rand : ℕ → DCRTPoly),
      ShareKeys ske ep N threshold index shareType rand = .error .mathError) ∧
    (∀ (sk_shares : List (ℕ × DCRTPoly)) (shareType : String),
      threshold ≤ sk_shares.length →
      RecoverSharedKey true ep sk_shares N threshold shareType =
        .error .notImplementedError) := by
  have hany : ep.moduli.any (fun q => decide (q ≤ N)) = true := by
    obtain ⟨q, hq, hle⟩ := hbad
    exact List.any_eq_true.mpr ⟨q, hq, by simpa using hle⟩
  constructor
  · intro ske index shareType rand
    unfold ShareKeys
    rw [if_neg (by omega), if_neg (by omega), if_pos hany]
  · intro sk_shares shareType hlen
    unfold RecoverSharedKey
    rw [if_neg (by simp), if_neg (by omega), if_neg (by omega), if_neg (by omega),
      if_pos hany]

/-- C3 counterexample: with the single limb modulus 3 and N = 3, recovery
fails with the not-implemented error, not the math error the claim names
for both directions. -/
theorem shareManager_modulus_guard_cex :
    RecoverSharedKey true ⟨1, [3]⟩ [(1, pC1), (2, pC2)] 3 2 shamirMode =
      .error .notImplementedError ∧
    CCError.notImplementedError ≠ CCError.mathError := by decide

/-- C3 witness: the guard fires at a concrete parameter set with limb
modulus 3 and N = 3 in additive mode. -/
theorem shareManager_modulus_guard_witness :
    ShareKeys skePoly ⟨1, [3]⟩ 3 2 1 additiveMode randConst = .error .mathError ∧
    RecoverSharedKey true ⟨1, [3]⟩ [(1, pC1), (2, pC2)] 3 2 additiveMode =
      .error .notImplementedError := by
  obtain ⟨h1, h2⟩ := shareManager_modulus_guard ⟨1, [3]⟩ 3 2 (by decide) (by decide)
    ⟨3, by decide, by decide⟩
  exact ⟨h1 skePoly 1 additiveMode randConst, h2 [(1, pC1), (2, pC2)] additiveMode (by decide)⟩

theorem fusionValidateRest_typeError (selfCtx firstEnc : ℕ) :
    ∀ (rest : List (Option Ciphertext)),
    (∀ c ∈ rest, ∃ x, c = some x ∧ x.ctxId = selfCtx) →
    (∃ c ∈ rest, ∃ x, c = some x ∧ x.encodingType ≠ firstEnc) →
    fusionValidateRest selfCtx firstEnc rest = some .typeError := by
  intro rest
  induction rest with
  | nil =>
    rintro _ ⟨c, hc, -⟩
    simp at hc
  | cons c rest ih =>
    rintro hall ⟨c0, hc0, x0, hx0, henc⟩
    obtain ⟨x, hx, hctx⟩ := hall c (by simp)
    subst hx
    simp only [fusionValidateRest]
    rw [if_neg (by simp [hctx])]
    by_cases he : x.encodingType ≠ firstEnc
    · rw [if_pos he]
    · rw [if_neg he]
      apply ih (fun c hc => hall c (by simp [hc]))
      rcases List.mem_cons.mp hc0 with h | h
      · exfalso
        rw [h] at hx0
        exact he ((Option.some_inj.mp hx0) ▸ henc)
      · exact ⟨c0, h, x0, hx0, henc⟩

theorem fusionValidateRest_configError (selfCtx firstEnc : ℕ) :
    ∀ (good : List (Option Ciphertext)) (bad : Option Ciphertext)
      (rest : List (Option Ciphertext)),
    (∀ c ∈ good, ∃ x, c = some x ∧ x.ctxId = selfCtx ∧ x.encodingType = firstEnc) →
    (bad = none ∨ ∃ x, bad = some x ∧ x.ctxId ≠ selfCtx) →
    fusionValidateRest selfCtx firstEnc (good ++ bad :: rest) = some .configError := by
  intro good
  induction good with
  | nil =>
    intro bad rest _ hbad
    rcases hbad with h | ⟨x, hx, hctx⟩
    · subst h; rfl
    · subst hx
      simp [fusionValidateRest, hctx]
  | cons c good ih =>
    intro bad rest hall hbad
    obtain ⟨x, hx, hctx, henc⟩ := hall c (by simp)
    subst hx
    simp only [List.cons_append, fusionValidateRest]
    rw [if_neg (by simp [hctx]), if_neg (by simp [henc])]
    exact ih bad rest (fun c hc => hall c (by simp [hc])) hbad

/-- C9 (amended): `MultipartyDecryptFusion` checks the shares one by one,
provenance before encoding, all before any backend call.  When every share
is non-null and owned by the context and some share has an encoding type
differing from the first share, the call fails with the type error and the
backend is invoked zero times; when a null or foreign share appears and
every share before it is owned and encoding-matching, the call fails with
the config error, again with zero backend invocations (also when the very
first share is null or foreign). -/
theorem multipartyDecryptFusion_validation (selfCtx : ℕ)
    (scheme : List Ciphertext → DecryptResult)
    (decode : List Ciphertext → DecryptResult → Plaintext) :
    (∀ (c0 : Ciphertext) (rest : List (Option Ciphertext)),
      c0.ctxId = selfCtx →
      (∀ c ∈ rest, ∃ x, c = some x ∧ x.ctxId = selfCtx) →
      (∃ c ∈ rest, ∃ x, c = some x ∧ x.encodingType ≠ c0.encodingType) →
      MultipartyDecryptFusion selfCtx scheme decode (some c0 :: rest) =
        (.error .typeError, 0)) ∧
    (∀ (c0 : Ciphertext) (good : List (Option Ciphertext)) (bad : Option Ciphertext)
        (rest : List (Option Ciphertext)),
      c0.ctxId = selfCtx →
      (∀ c ∈ good, ∃ x, c = some x ∧ x.ctxId = selfCtx ∧ x.encodingType = c0.encodingType) →
      (bad = none ∨ ∃ x, bad = some x ∧ x.ctxId ≠ selfCtx) →
      MultipartyDecryptFusion selfCtx scheme decode (some c0 :: (good ++ bad :: rest)) =
        (.error .configError, 0)) ∧
    (∀ (bad : Option Ciphertext) (rest : List (Option Ciphertext)),
      (bad = none ∨ ∃ x, bad = some x ∧ x.ctxId ≠ selfCtx) →
      MultipartyDecryptFusion selfCtx scheme decode (bad :: rest) =
        (.error .configError, 0)) := by
  refine ⟨?_, ?_, ?_⟩
  · intro c0 rest hown hall hbadenc
    have hv : fusionValidate selfCtx (some c0 :: rest) = some .typeError := by
      simp only [fusionValidate]
      rw [if_neg (by simp [hown])]
      exact fusionValidateRest_typeError selfCtx c0.encodingType rest hall hbadenc
    unfold MultipartyDecryptFusion
    rw [if_neg (by simp), hv]
  · intro c0 good bad rest hown hall hbad
    have hv : fusionValidate selfCtx (some c0 :: (good ++ bad :: rest)) =
        some .configError := by
      simp only [fusionValidate]
      rw [if_neg (by simp [hown])]
      exact fusionValidateRest_configError selfCtx c0.encodingType good bad rest hall hbad
    unfold MultipartyDecryptFusion
    rw [if_neg (by simp), hv]
  · intro bad rest hbad
    have hv : fusionValidate selfCtx (bad :: rest) = some .configError := by
      rcases hbad with h | ⟨x, hx, hctx⟩
      · subst h; rfl
      · subst hx
        simp [fusionValidate, hctx]
    unfold MultipartyDecryptFusion
    rw [if_neg (by simp), hv]

/-- C9 counterexample: in the list holding a valid share, then a null
share, then a share whose encoding type differs from the first, the second
share has an encoding type differing from the first, yet the call fails
with the config error raised for the null share scanned earlier, not with
the type error the claim requires for every such list. -/
theorem multipartyDecryptFusion_validation_cex :
    MultipartyDecryptFusion 0 backendValid decode0 [some ctA, none, some ctB] =
      (.error .configError, 0) ∧
    ctB.encodingType ≠ ctA.encodingType ∧
    CCError.configError ≠ CCError.typeError := by decide

/-- C9 witness: an owned share list with mismatched encodings fails with
the type error and zero backend calls; a null second share fails with the
config error and zero backend calls. -/
theorem multipartyDecryptFusion_validation_witness :
    MultipartyDecryptFusion 0 backendValid decode0 [some ctA, some ctB] =
      (.error .typeError, 0) ∧
    MultipartyDecryptFusion 0 backendValid decode0 [some ctA, none] =
      (.error .configError, 0) := by
  obtain ⟨h1, h2, -⟩ := multipartyDecryptFusion_validation 0 backendValid decode0
  constructor
  · refine h1 ctA [some ctB] rfl ?_ ⟨some ctB, by simp, ctB, rfl, by decide⟩
    intro c hc
    simp only [List.mem_singleton] at hc
    exact ⟨ctB, hc, rfl⟩
  · exact h2 ctA [] none [] rfl (by simp) (Or.inl rfl)

theorem length_filter_bne {a : ℕ} : ∀ {l : List ℕ}, l.Nodup → a ∈ l →
    (l.filter (fun i => i != a)).length = l.length - 1 := by
  intro l
  induction l with
  | nil => intro _ hm; simp at hm
  | cons x t ih =>
    intro hnd hm
    obtain ⟨hx, ht⟩ := List.nodup_cons.mp hnd
    simp only [List.filter_cons]
    rcases List.mem_cons.mp hm with h | h
    · subst h
      rw [if_neg (by simp)]
      have hall : t.filter (fun i => i != a) = t :=
        List.filter_eq_self.mpr (fun b hb => by
          simp only [bne_iff_ne, ne_eq, decide_eq_true_eq]
          intro hba
          exact hx (hba ▸ hb))
      simp [hall]
    · have hxa : x ≠ a := fun he => hx (he ▸ h)
      rw [if_pos (by simp [hxa])]
      have hpos : 0 < t.length := List.length_pos.mpr (List.ne_nil_of_mem h)
      simp only [List.length_cons, ih ht h]
      omega

theorem nodup_range_succ (N : ℕ) : (((List.range N).map (· + 1)) : List ℕ).Nodup :=
  (List.nodup_range N).map (fun a b h => by omega)

theorem mem_range_succ {N i : ℕ} : i ∈ (List.range N).map (· + 1) ↔ 1 ≤ i ∧ i ≤ N := by
  simp only [List.mem_map, List.mem_range]
  constructor
  · rintro ⟨a, ha, rfl⟩; omega
  · rintro ⟨h1, hN⟩; exact ⟨i - 1, by omega, by omega⟩

/-- C1 (amended): for every additive `ShareKeys` call with N ≥ 3 and the
remaining stated preconditions, the call returns the N - 1 shares of the
non-sharer indices in ascending order, and their slotwise sum reduces,
modulo every limb modulus, to the original secret element. -/
theorem shareKeys_additive_sum (ep : ElementParams) (ske : DCRTPoly) (rand : ℕ → DCRTPoly)
    (N threshold index : ℕ) (hN : 3 ≤ N) (ht : N / 2 < threshold)
    (hmod : ∀ q ∈ ep.moduli, N < q) (hidx1 : 1 ≤ index) (hidxN : index ≤ N)
    (hske : ske.wf ep) (hrand : ∀ i, (rand i).wf ep) :
    ∃ shares, ShareKeys ske ep N threshold index additiveMode rand = .ok shares ∧
      shares.length = N - 1 ∧
      shares.map Prod.fst = ((List.range N).map (· + 1)).filter (fun i => i != index) ∧
      ∀ k, k < ep.moduli.length → ∀ l, l < ep.ringDimension →
        (shares.map (fun p => p.2.val k l)).sum % ep.moduli.getD k 0 = ske.val k l := by
  have hany : ep.moduli.any (fun q => decide (q ≤ N)) = false := by
    rw [List.any_eq_false]
    intro q hq
    have := hmod q hq
    simp only [decide_eq_true_eq]
    omega
  have hidxlen : (((List.range N).map (· + 1)).filter (fun i => i != index)).length = N - 1 := by
    rw [length_filter_bne (nodup_range_succ N) (mem_range_succ.mpr ⟨hidx1, hidxN⟩)]
    simp
  have hveclen : (additiveVec ske (N - 1) rand).length = N - 1 := by
    unfold additiveVec
    simp
    omega
  refine ⟨(((List.range N).map (· + 1)).filter (fun i => i != index)).zip
      (additiveVec ske (N - 1) rand), ?_, ?_, ?_, ?_⟩
  · unfold ShareKeys
    rw [if_neg (by omega), if_neg (by omega), if_neg (by simp [hany]), if_pos rfl]
  · rw [List.length_zip, hidxlen, hveclen, Nat.min_self]
  · exact List.map_fst_zip _ _ (by rw [hidxlen, hveclen])
  · intro k hk l hl
    have hq : N < ep.moduli.getD k 0 := by
      apply hmod
      rw [List.getD_eq_getElem _ _ hk]
      exact List.getElem_mem hk
    have hq0 : 0 < ep.moduli.getD k 0 := by omega
    have hmapsnd : ((((List.range N).map (· + 1)).filter (fun i => i != index)).zip
        (additiveVec ske (N - 1) rand)).map Prod.snd = additiveVec ske (N - 1) rand :=
      List.map_snd_zip _ _ (by rw [hidxlen, hveclen])
    have hx : ((((List.range N).map (· + 1)).filter (fun i => i != index)).zip
        (additiveVec ske (N - 1) rand)).map (fun p => p.2.val k l) =
        (additiveVec ske (N - 1) rand).map (fun d => d.val k l) := by
      calc ((((List.range N).map (· + 1)).filter (fun i => i != index)).zip
            (additiveVec ske (N - 1) rand)).map (fun p => p.2.val k l)
          = (((((List.range N).map (· + 1)).filter (fun i => i != index)).zip
              (additiveVec ske (N - 1) rand)).map Prod.snd).map (fun d => d.val k l) :=
            (List.map_map (fun d : DCRTPoly => d.val k l) Prod.snd _).symm
        _ = (additiveVec ske (N - 1) rand).map (fun d => d.val k l) := by rw [hmapsnd]
    rw [hx]
    -- name the random summands
    have hrest : ∀ d ∈ (List.range (N - 1 - 2)).map (fun i => rand (i + 1)), d.wf ep := by
      intro d hd
      obtain ⟨i, -, rfl⟩ := List.mem_map.mp hd
      exact hrand (i + 1)
    have hrsumwf : ((((List.range (N - 1 - 2)).map (fun i => rand (i + 1))).foldl
        DCRTPoly.add (rand 0))).wf ep :=
      foldl_add_wf _ (rand 0) (hrand 0) hrest
    have hrsumval := foldl_add_val ((List.range (N - 1 - 2)).map (fun i => rand (i + 1)))
      (rand 0) (hrand 0) hrest k hk l hl
    have hsub := sub_val hske hrsumwf (k := k) (l := l) hk hl
    simp only [additiveVec, List.cons_append, List.map_cons, List.map_append,
      List.map_cons, List.map_nil, List.sum_cons, List.sum_append, List.sum_nil]
    rw [hsub, hrsumval, Nat.mod_mod_of_dvd _ dvd_rfl, ← Nat.add_assoc]
    exact additive_sum_recover hq0 ((hske.2 k hk).2.2 l hl)

/-- C1 counterexample: at N = 2, which the stated precondition N ≥ 2
allows, the additive branch builds the vector of the first random draw and
the difference, but assigns only the random draw as the single returned
share: the share sum modulo the limb modulus is the random word 1, not the
secret word 3. -/
theorem shareKeys_additive_sum_cex :
    ShareKeys skePoly ep5 2 2 1 additiveMode randConst = .ok [(2, randPoly)] ∧
    (([((2 : ℕ), randPoly)].map (fun p => p.2.val 0 0)).sum % 5 = 1 ∧
      skePoly.val 0 0 = 3 ∧ (1 : ℕ) ≠ 3) := by decide

/-- C1 witness: at N = 3, threshold 2, sharer index 3, the two returned
shares sum to the secret modulo the limb modulus. -/
theorem shareKeys_additive_sum_witness :
    ∃ shares, ShareKeys skePoly ep5 3 2 3 additiveMode randConst = .ok shares ∧
      shares.length = 3 - 1 ∧
      shares.map Prod.fst = ((List.range 3).map (· + 1)).filter (fun i => i != 3) ∧
      ∀ k, k < ep5.moduli.length → ∀ l, l < ep5.ringDimension →
        (shares.map (fun p => p.2.val k l)).sum % ep5.moduli.getD k 0 = skePoly.val k l :=
  shareKeys_additive_sum ep5 skePoly randConst 3 2 3 (by decide) (by decide)
    (by decide) (by decide) (by decide) (by decide)
    (fun _ => show DCRTPoly.wf ep5 randPoly by decide)

/-- C7: a valid additive recovery installs exactly the sum of the first
`threshold` shares taken in ascending party-index order.  `p :: L` is the
share map listed in ascending index order (any sorted permutation of the
map entries). -/
theorem recoverSharedKey_additive_firstT (ep : ElementParams)
    (s : List (ℕ × DCRTPoly)) (p : ℕ × DCRTPoly) (L : List (ℕ × DCRTPoly))
    (N threshold : ℕ) (hN : 2 ≤ N) (ht : N / 2 < threshold)
    (hmod : ∀ q ∈ ep.moduli, N < q) (hlen : threshold ≤ s.length)
    (hperm : (p :: L).Perm s) (hsorted : (p :: L).Pairwise (fun a b => a.1 < b.1))
    (hnd : (s.map Prod.fst).Nodup) (hrange : ∀ x ∈ s, 1 ≤ x.1 ∧ x.1 ≤ N) :
    RecoverSharedKey true ep s N threshold additiveMode =
      .ok (some (((L.take (threshold - 1)).map Prod.snd).foldl DCRTPoly.add p.2)) := by
  have hany : ep.moduli.any (fun q => decide (q ≤ N)) = false := by
    rw [List.any_eq_false]
    intro q hq
    have := hmod q hq
    simp only [decide_eq_true_eq]
    omega
  have hlk : ∀ x ∈ p :: L, s.lookup x.1 = some x.2 := by
    intro x hx
    exact lookup_eq_some_of_mem hnd (by simpa using hperm.mem_iff.mp hx)
  have hscrut : ((List.range N).map (· + 1)).filterMap (fun i => s.lookup i) =
      p.2 :: L.map Prod.snd := by
    rw [filterMap_eq_filterMap_filter]
    show (clientIndexes s N).filterMap (fun i => s.lookup i) = _
    rw [clientIndexes_eq_keys hperm hsorted hrange]
    have h : ((p :: L).map Prod.fst).filterMap (fun i => s.lookup i) =
        (p :: L).map Prod.snd := filterMap_lookup_eq_map_snd hlk
    simpa using h
  simp only [RecoverSharedKey, Bool.not_true]
  rw [if_neg (by simp), if_neg (by omega), if_neg (by omega), if_neg (by omega),
    if_neg (by simp [hany]),
    if_neg (by simp [collectDuplicates_sorted (clientIndexes_sorted s N)]),
    if_pos trivial, hscrut]
  show Except.ok (some (((L.map Prod.snd).take (threshold - 1)).foldl DCRTPoly.add p.2)) = _
  rw [List.map_take]

/-- C7 witness: with three shares indexed 2, 1, 3 in the map and
threshold 2, the recovered element is the sum of the shares of parties 1
and 2 only. -/
theorem recoverSharedKey_additive_firstT_witness :
    RecoverSharedKey true ep5 [(2, pC2), (1, pC1), (3, pC3)] 3 2 additiveMode =
      .ok (some (((([((2 : ℕ), pC2), (3, pC3)]).take (2 - 1)).map Prod.snd).foldl
        DCRTPoly.add ((1, pC1) : ℕ × DCRTPoly).2)) ∧
    ((([((2 : ℕ), pC2), (3, pC3)]).take (2 - 1)).map Prod.snd).foldl DCRTPoly.add
        ((1, pC1) : ℕ × DCRTPoly).2 =
      ⟨[⟨5, Format.COEFFICIENT, [0]⟩]⟩ :=
  ⟨recoverSharedKey_additive_firstT ep5 [(2, pC2), (1, pC1), (3, pC3)] (1, pC1)
    [(2, pC2), (3, pC3)] 3 2 (by decide) (by decide) (by decide) (by decide)
    (by decide) (by decide) (by decide) (by decide), by decide⟩

/-- C6: a valid Shamir recovery computes, for each known index j, the
Lagrange weight at point 0 as the product over the other known indices i
of i times the modular inverse of the positive representative of i - j
(negative differences corrected by adding the modulus before inverting),
independently modulo each limb modulus; broadcasts the scalar weight over
all ring slots; accumulates the weighted share sum per limb in the
coefficient representation; and installs the assembled element converted
to the transform (EVALUATION) representation. -/
theorem recoverSharedKey_shamir_lagrange (ep : ElementParams)
    (s L : List (ℕ × DCRTPoly)) (N threshold : ℕ)
    (hN : 2 ≤ N) (ht : N / 2 < threshold) (hmod : ∀ q ∈ ep.moduli, N < q)
    (hlen : threshold ≤ s.length) (hperm : L.Perm s)
    (hsorted : L.Pairwise (fun a b => a.1 < b.1))
    (hnd : (s.map Prod.fst).Nodup) (hrange : ∀ x ∈ s, 1 ≤ x.1 ∧ x.1 ≤ N) :
    ∃ res, RecoverSharedKey true ep s N threshold shamirMode = .ok (some res) ∧
      res.limbs.length = ep.moduli.length ∧
      ∀ k, k < ep.moduli.length →
        (res.limbs.getD k defaultNativePoly).format = Format.EVALUATION ∧
        (res.limbs.getD k defaultNativePoly).modulus = ep.moduli.getD k 0 ∧
        (res.limbs.getD k defaultNativePoly).values.length = ep.ringDimension ∧
        ∀ l, l < ep.ringDimension →
          res.val k l =
            (L.map (fun x =>
              NativeModMul (specLagrangeWeight x.1 (L.map Prod.fst) (ep.moduli.getD k 0))
                (x.2.val k l) (ep.moduli.getD k 0))).sum := by
  have hany : ep.moduli.any (fun q => decide (q ≤ N)) = false := by
    rw [List.any_eq_false]
    intro q hq
    have := hmod q hq
    simp only [decide_eq_true_eq]
    omega
  have hlk : ∀ x ∈ L, s.lookup x.1 = some x.2 := by
    intro x hx
    exact lookup_eq_some_of_mem hnd (by simpa using hperm.mem_iff.mp hx)
  have hids : clientIndexes s N = L.map Prod.fst :=
    clientIndexes_eq_keys hperm hsorted hrange
  refine ⟨DCRTPoly.setFormat
      ⟨(List.range ep.moduli.length).map (fun k =>
        ⟨ep.moduli.getD k 0, Format.COEFFICIENT,
          shamirLimbValues (L.map Prod.fst) s k (ep.moduli.getD k 0) ep.ringDimension⟩)⟩
      Format.EVALUATION, ?_, ?_, ?_⟩
  · simp only [RecoverSharedKey, Bool.not_true]
    rw [if_neg (by simp), if_neg (by omega), if_neg (by omega), if_neg (by omega),
      if_neg (by simp [hany]),
      if_neg (by simp [collectDuplicates_sorted (clientIndexes_sorted s N)]),
      if_neg (by decide), if_pos trivial, hids]
  · simp [DCRTPoly.setFormat]
  · intro k hk
    have hq : N < ep.moduli.getD k 0 := by
      apply hmod
      rw [List.getD_eq_getElem _ _ hk]
      exact List.getElem_mem hk
    have hq1 : 1 < ep.moduli.getD k 0 := by omega
    have hklimb : (DCRTPoly.setFormat
        ⟨(List.range ep.moduli.length).map (fun k =>
          ⟨ep.moduli.getD k 0, Format.COEFFICIENT,
            shamirLimbValues (L.map Prod.fst) s k (ep.moduli.getD k 0) ep.ringDimension⟩)⟩
        Format.EVALUATION).limbs.getD k defaultNativePoly =
        ⟨ep.moduli.getD k 0, Format.EVALUATION,
          shamirLimbValues (L.map Prod.fst) s k (ep.moduli.getD k 0) ep.ringDimension⟩ := by
      simp only [DCRTPoly.setFormat, List.map_map]
      rw [List.getD_eq_getElem _ _ (by simpa using hk)]
      simp
    obtain ⟨hslen, hsval⟩ :=
      shamirLimbValues_spec (L.map Prod.fst) s k (ep.moduli.getD k 0) ep.ringDimension
    refine ⟨by rw [hklimb], by rw [hklimb], by rw [hklimb]; exact hslen, ?_⟩
    intro l hl
    have hval : (DCRTPoly.setFormat
        ⟨(List.range ep.moduli.length).map (fun k =>
          ⟨ep.moduli.getD k 0, Format.COEFFICIENT,
            shamirLimbValues (L.map Prod.fst) s k (ep.moduli.getD k 0) ep.ringDimension⟩)⟩
        Format.EVALUATION).val k l =
        (shamirLimbValues (L.map Prod.fst) s k (ep.moduli.getD k 0) ep.ringDimension).getD
          l 0 := by
      unfold DCRTPoly.val
      rw [hklimb]
    rw [hval, hsval l hl]
    have hcongr : (L.map Prod.fst).map (fun i =>
        NativeModMul ((lagrangeCoeffValues i (L.map Prod.fst) (ep.moduli.getD k 0)
            ep.ringDimension).getD l 0)
          (((s.lookup i).getD defaultDCRTPoly).val k l) (ep.moduli.getD k 0)) =
        (L.map Prod.fst).map (fun i =>
          NativeModMul (specLagrangeWeight i (L.map Prod.fst) (ep.moduli.getD k 0))
            (((s.lookup i).getD defaultDCRTPoly).val k l) (ep.moduli.getD k 0)) := by
      apply List.map_congr_left
      intro i hi
      rw [lagrangeCoeffValues_replicate, List.getD_eq_getElem _ _ (by simpa using hl),
        List.getElem_replicate, lagrangeWeightFold_eq_spec i (L.map Prod.fst) hq1]
    rw [hcongr]
    have hfin : (L.map Prod.fst).map (fun i =>
        NativeModMul (specLagrangeWeight i (L.map Prod.fst) (ep.moduli.getD k 0))
          (((s.lookup i).getD defaultDCRTPoly).val k l) (ep.moduli.getD k 0)) =
        L.map (fun x =>
          NativeModMul (specLagrangeWeight x.1 (L.map Prod.fst) (ep.moduli.getD k 0))
            (x.2.val k l) (ep.moduli.getD k 0)) :=
      map_lookup_eq defaultDCRTPoly (fun i b =>
        NativeModMul (specLagrangeWeight i (L.map Prod.fst) (ep.moduli.getD k 0))
          (b.val k l) (ep.moduli.getD k 0)) hlk
    rw [hfin]

/-- C6 witness: with shares of parties 1 and 2 under the limb modulus 5,
the Lagrange weights are 2 and 4, and the installed element carries the
unreduced weighted sum 2*2 % 5 + 4*3 % 5 = 6 in the transform format. -/
theorem recoverSharedKey_shamir_lagrange_witness :
    (RecoverSharedKey true ep5 [(1, pC1), (2, pC2)] 3 2 shamirMode =
      .ok (some ⟨[⟨5, Format.EVALUATION, [6]⟩]⟩)) ∧
    ∃ res, RecoverSharedKey true ep5 [(1, pC1), (2, pC2)] 3 2 shamirMode = .ok (some res) ∧
      res.limbs.length = ep5.moduli.length ∧
      ∀ k, k < ep5.moduli.length →
        (res.limbs.getD k defaultNativePoly).format = Format.EVALUATION ∧
        (res.limbs.getD k defaultNativePoly).modulus = ep5.moduli.getD k 0 ∧
        (res.limbs.getD k defaultNativePoly).values.length = ep5.ringDimension ∧
        ∀ l, l < ep5.ringDimension →
          res.val k l =
            (([(1, pC1), (2, pC2)] : List (ℕ × DCRTPoly)).map (fun x =>
              NativeModMul (specLagrangeWeight x.1
                  ((([(1, pC1), (2, pC2)] : List (ℕ × DCRTPoly))).map Prod.fst)
                  (ep5.moduli.getD k 0))
                (x.2.val k l) (ep5.moduli.getD k 0))).sum :=
  ⟨by decide,
    recoverSharedKey_shamir_lagrange ep5 [(1, pC1), (2, pC2)] [(1, pC1), (2, pC2)] 3 2
      (by decide) (by decide) (by decide) (by decide) (List.Perm.refl _)
      (by decide) (by decide) (by decide)⟩

end lbcrypto
